import Mathlib

/-!
Verification of the UniRef-to-SQLite annotation pipeline
(`proteinbert/uniref_dataset.py`).

The development shallowly embeds the pipeline's pure computational core:

* the per-record GO-annotation resolution of `UnirefToSqliteParser`
  (`_get_complete_go_annotation_indices`, `_get_complete_go_annotations`,
  `_get_go_annotation_all_ancestors`, `_save_current_chunk`, and the
  finalization in `parse`);
* the chunked record-stream buffering of `_process_entry` / `parse`;
* the per-entry field extraction of `_process_entry`;
* the BFS-style closure computation `_get_index_to_all_ancestors` and its
  two wrappers in `_add_children_and_parents_to_go_annotations_meta`.

Python dictionaries are embedded as functions into `Option`, Python sets as
`Finset`, Python lists as `List`.  Machine details that the claims do not
depend on (sqlite, gzip, pandas serialization, logging) are omitted; the
float column `freq` is modelled over `ℚ` with `Option` encoding the
non-finite result of a zero division (pandas NaN).
-/

namespace UnirefDataset

/-- The two dictionaries `_process_go_annotations_meta` derives from the GO
annotations metadata table: `go_id_to_index` (term id to dense index) and
`go_annotation_to_all_ancestors` (term id to its ancestor-closure set of
term ids).  A `none` result models a missing dictionary key. -/
structure AnnotMeta where
  goIdToIndex : String → Option Nat
  allAncestorsOf : String → Option (Finset String)

/-- One step of the sort embedding Python `sorted` on integer lists. -/
def pyInsertNat (a : Nat) : List Nat → List Nat
  | [] => [a]
  | b :: l => if a ≤ b then a :: b :: l else b :: pyInsertNat a l

/-- Embedding of Python `list(sorted(l))` on integer lists (an insertion
sort; Python's sort produces the same output list). -/
def pySortedNat (l : List Nat) : List Nat :=
  l.foldr pyInsertNat []

/-- Lexicographic code-point comparison of character lists, matching how
Python compares strings. -/
def charListLe : List Char → List Char → Bool
  | [], _ => true
  | _ :: _, [] => false
  | a :: as, b :: bs =>
    if a.toNat < b.toNat then true
    else if b.toNat < a.toNat then false
    else charListLe as bs

/-- Python's string comparison: lexicographic on code points. -/
def strLeB (a b : String) : Bool :=
  charListLe a.data b.data

/-- One step of the sort embedding Python `sorted` on string lists. -/
def pyInsertStr (a : String) : List String → List String
  | [] => [a]
  | b :: l => if strLeB a b then a :: b :: l else b :: pyInsertStr a l

/-- Embedding of Python `list(sorted(l))` on string lists. -/
def pySortedStr (l : List String) : List String :=
  l.foldr pyInsertStr []

/-- Embedding of `_get_go_annotation_all_ancestors` (result value only; the
`unrecognized_go_annotations` side effect is modelled separately in
`unrecUpdate`): a recognized annotation id yields its stored ancestor set,
an unrecognized one yields the empty set. -/
def getGoAnnotationAllAncestors (m : AnnotMeta) (a : String) : Finset String :=
  match m.allAncestorsOf a with
  | some s => s
  | none => ∅

/-- Embedding of `_get_complete_go_annotations`: the union of the ancestor
closures of all the record's annotation ids (`set.union(set(), *[...])`). -/
def getCompleteGoAnnotations (m : AnnotMeta) (annots : List String) : Finset String :=
  annots.foldr (fun a acc => getGoAnnotationAllAncestors m a ∪ acc) ∅

/-- Python truthiness of an optional integer, as used by `filter(None, ...)`
in `_get_complete_go_annotation_indices`: `None` is falsy, and so is the
integer `0`. -/
def pyTruthy : Option Nat → Bool
  | none => false
  | some k => decide (k ≠ 0)

/-- Embedding of `_get_complete_go_annotation_indices`: the ancestor-closure
union is computed (dead store, as in the source) and the returned value is
`list(sorted(filter(None, map(go_id_to_index.get, go_annotations))))`. -/
def getCompleteGoAnnotationIndices (m : AnnotMeta) (annots : List String) : List Nat :=
  let _completeGoAnnots := getCompleteGoAnnotations m annots
  pySortedNat (((annots.map m.goIdToIndex).filter pyTruthy).filterMap id)

/-- A record's raw GO references, one list per category, in the fixed order
of `_GO_ANNOTATION_CATEGORIES` (molecular function, biological process,
cellular component). -/
structure RecordAnnots where
  mf : List String
  bp : List String
  cc : List String

/-- Embedding of the `flat_go_annotations` column: the sorted deduplicated
union of the three category lists
(`list(sorted(set.union(*map(set, go_annotations.values()))))`). -/
def flatGoAnnotations (r : RecordAnnots) : List String :=
  pySortedStr (r.mf ++ r.bp ++ r.cc).dedup

/-- The `n_go_annotations` column. -/
def nGoAnnotationsOf (r : RecordAnnots) : Nat :=
  (flatGoAnnotations r).length

/-- The `complete_go_annotation_indices` column of a record. -/
def completeIndicesOf (m : AnnotMeta) (r : RecordAnnots) : List Nat :=
  getCompleteGoAnnotationIndices m (flatGoAnnotations r)

/-- The `n_complete_go_annotations` column of a record. -/
def nCompleteOf (m : AnnotMeta) (r : RecordAnnots) : Nat :=
  (completeIndicesOf m r).length

/-- The three running counters owned by the parser across a run:
`go_index_record_counter`, `n_records_with_any_go_annotation`, and
`unrecognized_go_annotations`.  The Python `Counter`s are embedded as total
functions defaulting to 0. -/
structure RunState where
  goIndexRecordCounter : Nat → Nat
  nRecordsWithAnyGoAnn : Nat
  unrecognizedGoAnns : String → Nat

/-- Embedding of `Counter.update(l)`: add one occurrence per list element. -/
def counterUpdate (c : Nat → Nat) (l : List Nat) : Nat → Nat :=
  l.foldl (fun c ix => Function.update c ix (c ix + 1)) c

/-- The `unrecognized_go_annotations` increments produced while resolving a
record's flat annotation list (side effect of
`_get_go_annotation_all_ancestors`). -/
def unrecUpdate (m : AnnotMeta) (u : String → Nat) (annots : List String) : String → Nat :=
  annots.foldl
    (fun u a =>
      match m.allAncestorsOf a with
      | some _ => u
      | none => Function.update u a (u a + 1))
    u

/-- Embedding of the counter updates of `_save_current_chunk` on one chunk of
records: per record, `go_index_record_counter.update(complete_go_annotation_indices)`;
`n_records_with_any_go_annotation += (n_complete_go_annotations > 0).sum()`;
and the unrecognized-reference tallies from resolution. -/
def saveCurrentChunk (m : AnnotMeta) (st : RunState) (recs : List RecordAnnots) : RunState :=
  { goIndexRecordCounter :=
      recs.foldl (fun c r => counterUpdate c (completeIndicesOf m r)) st.goIndexRecordCounter
    nRecordsWithAnyGoAnn :=
      st.nRecordsWithAnyGoAnn + recs.countP (fun r => decide (0 < nCompleteOf m r))
    unrecognizedGoAnns :=
      recs.foldl (fun u r => unrecUpdate m u (flatGoAnnotations r)) st.unrecognizedGoAnns }

/-- The parser's state right after `__init__`: all counters zero. -/
def initRunState : RunState :=
  { goIndexRecordCounter := fun _ => 0
    nRecordsWithAnyGoAnn := 0
    unrecognizedGoAnns := fun _ => 0 }

/-- A whole run's counter accumulation: the record stream partitioned into
the chunks that `_save_current_chunk` receives, processed in order. -/
def runChunks (m : AnnotMeta) (chunks : List (List RecordAnnots)) : RunState :=
  chunks.foldl (saveCurrentChunk m) initRunState

/-- The finalized `count` column of `parse` for the term of dense index
`ix`: the accumulated counter value, with 0 for never-counted terms
(`reindex(...).fillna(0)`). -/
def countColumn (st : RunState) (ix : Nat) : Nat :=
  st.goIndexRecordCounter ix

/-- Pandas division of two nonnegative integer columns, over `ℚ`; `none`
models the non-finite float produced when the denominator is 0 (NaN for the
only reachable case, a 0/0). -/
def pyDivOrNan (a b : Nat) : Option ℚ :=
  if b = 0 then none else some ((a : ℚ) / (b : ℚ))

/-- The finalized `freq` column of `parse`:
`count / n_records_with_any_go_annotation`. -/
def freqColumn (st : RunState) (ix : Nat) : Option ℚ :=
  pyDivOrNan (countColumn st ix) st.nRecordsWithAnyGoAnn

theorem pyInsertNat_perm (a : Nat) (l : List Nat) : (pyInsertNat a l).Perm (a :: l) := by
  induction l with
  | nil => exact List.Perm.refl _
  | cons b t ih =>
    by_cases h : a ≤ b
    · simp [pyInsertNat, h]
    · simp only [pyInsertNat, if_neg h]
      exact (ih.cons b).trans (List.Perm.swap a b t)

theorem pySortedNat_perm (l : List Nat) : (pySortedNat l).Perm l := by
  induction l with
  | nil => exact List.Perm.refl _
  | cons a t ih =>
    exact (pyInsertNat_perm a (pySortedNat t)).trans (ih.cons a)

theorem pyInsertStr_perm (a : String) (l : List String) : (pyInsertStr a l).Perm (a :: l) := by
  induction l with
  | nil => exact List.Perm.refl _
  | cons b t ih =>
    by_cases h : strLeB a b = true
    · simp [pyInsertStr, h]
    · simp only [pyInsertStr, if_neg h]
      exact (ih.cons b).trans (List.Perm.swap a b t)

theorem pySortedStr_perm (l : List String) : (pySortedStr l).Perm l := by
  induction l with
  | nil => exact List.Perm.refl _
  | cons a t ih =>
    exact (pyInsertStr_perm a (pySortedStr t)).trans (ih.cons a)

theorem flatGoAnnotations_nodup (r : RecordAnnots) : (flatGoAnnotations r).Nodup :=
  ((pySortedStr_perm _).nodup_iff).mpr (List.nodup_dedup _)

theorem counterUpdate_eq (l : List Nat) (c : Nat → Nat) (ix : Nat) :
    counterUpdate c l ix = c ix + l.count ix := by
  induction l generalizing c with
  | nil => simp [counterUpdate]
  | cons a t ih =>
    show counterUpdate (Function.update c a (c a + 1)) t ix = _
    rw [ih]
    by_cases h : ix = a
    · subst h
      simp [Function.update, List.count_cons]
      try omega
    · have hne : ¬a = ix := fun hh => h hh.symm
      simp [Function.update, h, List.count_cons, hne]
      try omega

theorem chunkCounter_foldl_eq (m : AnnotMeta) (recs : List RecordAnnots) (c : Nat → Nat)
    (ix : Nat) :
    (recs.foldl (fun c r => counterUpdate c (completeIndicesOf m r)) c) ix
      = c ix + (recs.map (fun r => (completeIndicesOf m r).count ix)).sum := by
  induction recs generalizing c with
  | nil => simp
  | cons r t ih =>
    simp only [List.foldl_cons, List.map_cons, List.sum_cons]
    rw [ih, counterUpdate_eq]
    omega

/-- C1 (amended): in `_save_current_chunk`, the per-term record counter is
incremented, for each record, by exactly the multiplicity of the term's
index in that record's stored `complete_go_annotation_indices` list (the
indices of its directly-referenced recognized terms whose dense index is
nonzero) — ancestor indices that are not directly referenced receive no
increment. -/
theorem go_index_counter_counts_direct_indices_only (m : AnnotMeta) (st : RunState)
    (recs : List RecordAnnots) (ix : Nat) :
    (saveCurrentChunk m st recs).goIndexRecordCounter ix
      = st.goIndexRecordCounter ix
        + (recs.map (fun r => (completeIndicesOf m r).count ix)).sum :=
  chunkCounter_foldl_eq m recs st.goIndexRecordCounter ix

/-- A two-term metadata table: GO:0000 (dense index 1) is the parent of
GO:0001 (dense index 2), so GO:0001's ancestor closure is
&#123;GO:0000, GO:0001&#125;. -/
def m1 : AnnotMeta where
  goIdToIndex := fun a =>
    if a = "GO:0000" then some 1 else if a = "GO:0001" then some 2 else none
  allAncestorsOf := fun a =>
    if a = "GO:0000" then some {"GO:0000"}
    else if a = "GO:0001" then some ({"GO:0000", "GO:0001"} : Finset String) else none

/-- A record whose only raw GO reference is GO:0001. -/
def rec1 : RecordAnnots := ⟨["GO:0001"], [], []⟩

/-- C1 (counterexample): for a record referencing GO:0001, whose resolved
ancestor-closure union contains the ancestor GO:0000 of dense index 1, the
running record counter of index 1 is NOT incremented by
`_save_current_chunk` — it stays 0, because the counter is fed the stored
direct-index list, not the ancestor-closure union. -/
theorem c1_counterexample :
    m1.goIdToIndex "GO:0000" = some 1 ∧
    "GO:0000" ∈ getCompleteGoAnnotations m1 (flatGoAnnotations rec1) ∧
    (saveCurrentChunk m1 initRunState [rec1]).goIndexRecordCounter 1 = 0 := by
  decide

/-- A one-term metadata table whose only term GO:0000 has dense index 0 (as
the first term loaded by `parse_go_annotations_meta` always does). -/
def m2 : AnnotMeta where
  goIdToIndex := fun a => if a = "GO:0000" then some 0 else none
  allAncestorsOf := fun a => if a = "GO:0000" then some {"GO:0000"} else none

/-- C2: a record whose single raw reference GO:0000 is recognized with
dense index 0 gets an empty `complete_go_annotation_indices` list:
`filter(None, ...)` drops the falsy integer 0, so the recognized
directly-referenced term's index is lost. -/
theorem c2_index_zero_dropped :
    m2.goIdToIndex "GO:0000" = some 0 ∧
    getCompleteGoAnnotationIndices m2 ["GO:0000"] = [] := by
  decide

/-- C9: a record whose three GO categories are all empty has
`n_go_annotations = 0`, `n_complete_go_annotations = 0`, and does not
increment the any-annotation running total when its chunk is saved. -/
theorem empty_record_contributes_nothing (m : AnnotMeta) (r : RecordAnnots)
    (hmf : r.mf = []) (hbp : r.bp = []) (hcc : r.cc = []) :
    nGoAnnotationsOf r = 0 ∧ nCompleteOf m r = 0 ∧
      ∀ st : RunState,
        (saveCurrentChunk m st [r]).nRecordsWithAnyGoAnn = st.nRecordsWithAnyGoAnn := by
  have hflat : flatGoAnnotations r = [] := by
    simp [flatGoAnnotations, hmf, hbp, hcc, pySortedStr]
  have hn : nGoAnnotationsOf r = 0 := by simp [nGoAnnotationsOf, hflat]
  have hc : nCompleteOf m r = 0 := by
    simp [nCompleteOf, completeIndicesOf, hflat, getCompleteGoAnnotationIndices,
      pySortedNat]
  refine ⟨hn, hc, fun st => ?_⟩
  simp [saveCurrentChunk, List.countP_cons, hc]

/-- C9 witness: the concrete empty record under the concrete table `m2`. -/
theorem empty_record_contributes_nothing_witness :
    nGoAnnotationsOf ⟨[], [], []⟩ = 0 ∧ nCompleteOf m2 ⟨[], [], []⟩ = 0 ∧
      (saveCurrentChunk m2 initRunState [⟨[], [], []⟩]).nRecordsWithAnyGoAnn
        = initRunState.nRecordsWithAnyGoAnn := by
  have h := empty_record_contributes_nothing m2 ⟨[], [], []⟩ rfl rfl rfl
  exact ⟨h.1, h.2.1, h.2.2 initRunState⟩

/-- The index a raw reference contributes to the stored list: its dense
index when recognized and nonzero, nothing otherwise (proof-side
compaction of map + truthiness filter). -/
def truthyIndex (f : String → Option Nat) (a : String) : Option Nat :=
  match f a with
  | some k => if k = 0 then none else some k
  | none => none

theorem filter_pyTruthy_eq_filterMap (f : String → Option Nat) (l : List String) :
    ((l.map f).filter pyTruthy).filterMap id = l.filterMap (truthyIndex f) := by
  induction l with
  | nil => rfl
  | cons a t ih =>
    cases hfa : f a with
    | none => simp [pyTruthy, hfa, truthyIndex, ih]
    | some k =>
      by_cases hk : k = 0
      · simp [pyTruthy, hfa, truthyIndex, hk, ih]
      · simp [pyTruthy, hfa, truthyIndex, hk, ih]

theorem mem_truthyIndex {f : String → Option Nat} {a : String} {b : Nat}
    (h : b ∈ truthyIndex f a) : f a = some b ∧ b ≠ 0 := by
  cases hfa : f a with
  | none => simp [truthyIndex, hfa] at h
  | some k =>
    by_cases hk : k = 0
    · simp [truthyIndex, hfa, hk] at h
    · simp [truthyIndex, hfa, hk] at h
      have hb : b = k := h.symm
      subst hb
      exact ⟨rfl, hk⟩

theorem completeIndicesOf_nodup (m : AnnotMeta)
    (hinj : ∀ a b ix, m.goIdToIndex a = some ix → m.goIdToIndex b = some ix → a = b)
    (r : RecordAnnots) : (completeIndicesOf m r).Nodup := by
  have h1 : (completeIndicesOf m r)
      = pySortedNat ((flatGoAnnotations r).filterMap (truthyIndex m.goIdToIndex)) := by
    unfold completeIndicesOf getCompleteGoAnnotationIndices
    rw [filter_pyTruthy_eq_filterMap]
  rw [h1]
  refine ((pySortedNat_perm _).nodup_iff).mpr ?_
  refine List.Nodup.filterMap ?_ (flatGoAnnotations_nodup r)
  intro a a' b hb hb'
  obtain ⟨ha, _⟩ := mem_truthyIndex hb
  obtain ⟨ha', _⟩ := mem_truthyIndex hb'
  exact hinj a a' b ha ha'

theorem count_completeIndicesOf_le_one (m : AnnotMeta)
    (hinj : ∀ a b ix, m.goIdToIndex a = some ix → m.goIdToIndex b = some ix → a = b)
    (r : RecordAnnots) (ix : Nat) : (completeIndicesOf m r).count ix ≤ 1 :=
  List.nodup_iff_count_le_one.mp (completeIndicesOf_nodup m hinj r) ix

theorem count_pos_nComplete_pos (m : AnnotMeta) (r : RecordAnnots) (ix : Nat)
    (h : 0 < (completeIndicesOf m r).count ix) : 0 < nCompleteOf m r := by
  have hmem : ix ∈ completeIndicesOf m r := List.count_pos_iff.mp h
  have : completeIndicesOf m r ≠ [] := by
    intro he
    rw [he] at hmem
    exact absurd hmem (List.not_mem_nil ix)
  exact List.length_pos.mpr this

theorem sum_counts_le_countP (m : AnnotMeta)
    (hinj : ∀ a b ix, m.goIdToIndex a = some ix → m.goIdToIndex b = some ix → a = b)
    (recs : List RecordAnnots) (ix : Nat) :
    (recs.map (fun r => (completeIndicesOf m r).count ix)).sum
      ≤ recs.countP (fun r => decide (0 < nCompleteOf m r)) := by
  induction recs with
  | nil => simp
  | cons r t ih =>
    simp only [List.map_cons, List.sum_cons, List.countP_cons]
    by_cases hz : (completeIndicesOf m r).count ix = 0
    · rw [hz]
      have : (t.countP fun r => decide (0 < nCompleteOf m r)) ≤
          t.countP (fun r => decide (0 < nCompleteOf m r)) +
            (if decide (0 < nCompleteOf m r) = true then 1 else 0) := Nat.le_add_right _ _
      omega
    · have h1 : (completeIndicesOf m r).count ix = 1 :=
        Nat.le_antisymm (count_completeIndicesOf_le_one m hinj r ix) (Nat.pos_of_ne_zero hz)
      have hp : 0 < nCompleteOf m r :=
        count_pos_nComplete_pos m r ix (Nat.pos_of_ne_zero hz)
      rw [h1, if_pos (by simpa using hp)]
      omega

/-- The total multiplicity with which term index `ix` occurs across the
stored index lists of a stream of chunks. -/
def totalOcc (m : AnnotMeta) (chunks : List (List RecordAnnots)) (ix : Nat) : Nat :=
  (chunks.map (fun c => (c.map (fun r => (completeIndicesOf m r).count ix)).sum)).sum

theorem foldl_saveChunk_counter_eq (m : AnnotMeta) (chunks : List (List RecordAnnots))
    (st : RunState) (ix : Nat) :
    (chunks.foldl (saveCurrentChunk m) st).goIndexRecordCounter ix
      = st.goIndexRecordCounter ix + totalOcc m chunks ix := by
  induction chunks generalizing st with
  | nil => simp [totalOcc]
  | cons c t ih =>
    simp only [List.foldl_cons, totalOcc, List.map_cons, List.sum_cons]
    rw [ih, go_index_counter_counts_direct_indices_only]
    unfold totalOcc
    omega

theorem foldl_saveChunk_counter_le (m : AnnotMeta)
    (hinj : ∀ a b ix, m.goIdToIndex a = some ix → m.goIdToIndex b = some ix → a = b)
    (chunks : List (List RecordAnnots)) (st : RunState)
    (h : ∀ ix, st.goIndexRecordCounter ix ≤ st.nRecordsWithAnyGoAnn) (ix : Nat) :
    (chunks.foldl (saveCurrentChunk m) st).goIndexRecordCounter ix
      ≤ (chunks.foldl (saveCurrentChunk m) st).nRecordsWithAnyGoAnn := by
  induction chunks generalizing st with
  | nil => exact h ix
  | cons c t ih =>
    refine ih (saveCurrentChunk m st c) ?_
    intro j
    rw [go_index_counter_counts_direct_indices_only]
    show _ ≤ st.nRecordsWithAnyGoAnn + c.countP (fun r => decide (0 < nCompleteOf m r))
    exact Nat.add_le_add (h j) (sum_counts_le_countP m hinj c j)

/-- C7: after a full run, the finalized per-term `count` is a natural
number, 0 for terms never credited; `freq` is `count` divided by the final
any-annotation total; when that total is positive, every `freq` is a
rational in the closed interval from 0 to 1; and when the total is zero the
`freq` entry of every term is the explicit non-finite marker (NaN). -/
theorem count_freq_finalization (m : AnnotMeta)
    (hinj : ∀ a b ix, m.goIdToIndex a = some ix → m.goIdToIndex b = some ix → a = b)
    (chunks : List (List RecordAnnots)) :
    (∀ ix, countColumn (runChunks m chunks) ix ≤ (runChunks m chunks).nRecordsWithAnyGoAnn) ∧
    (∀ ix, freqColumn (runChunks m chunks) ix
        = pyDivOrNan (countColumn (runChunks m chunks) ix)
            (runChunks m chunks).nRecordsWithAnyGoAnn) ∧
    (0 < (runChunks m chunks).nRecordsWithAnyGoAnn →
      ∀ ix, ∃ q : ℚ, freqColumn (runChunks m chunks) ix = some q ∧ 0 ≤ q ∧ q ≤ 1) ∧
    ((runChunks m chunks).nRecordsWithAnyGoAnn = 0 →
      ∀ ix, freqColumn (runChunks m chunks) ix = none) ∧
    (∀ ix, (∀ c, c ∈ chunks → ∀ r, r ∈ c → (completeIndicesOf m r).count ix = 0) →
      countColumn (runChunks m chunks) ix = 0) := by
  have hle : ∀ ix, countColumn (runChunks m chunks) ix
      ≤ (runChunks m chunks).nRecordsWithAnyGoAnn := by
    intro ix
    exact foldl_saveChunk_counter_le m hinj chunks initRunState (fun _ => Nat.le_refl 0) ix
  refine ⟨hle, fun ix => rfl, ?_, ?_, ?_⟩
  · intro hpos ix
    refine ⟨(countColumn (runChunks m chunks) ix : ℚ)
        / ((runChunks m chunks).nRecordsWithAnyGoAnn : ℚ), ?_, ?_, ?_⟩
    · unfold freqColumn pyDivOrNan
      rw [if_neg (Nat.pos_iff_ne_zero.mp hpos)]
    · positivity
    · rw [div_le_one (by exact_mod_cast hpos)]
      exact_mod_cast hle ix
  · intro hz ix
    unfold freqColumn pyDivOrNan
    rw [if_pos hz]
  · intro ix hz
    rw [countColumn, runChunks, foldl_saveChunk_counter_eq]
    have : totalOcc m chunks ix = 0 := by
      unfold totalOcc
      refine List.sum_eq_zero ?_
      intro x hx
      obtain ⟨c, hc, hcx⟩ := List.mem_map.mp hx
      rw [← hcx]
      refine List.sum_eq_zero ?_
      intro y hy
      obtain ⟨r, hr, hry⟩ := List.mem_map.mp hy
      rw [← hry]
      exact hz c hc r hr
    rw [this]
    rfl

/-- C7 witness: the two-term table `m1` (whose id-to-index map is injective)
with the single-record stream, evaluated at term index 2. -/
theorem count_freq_finalization_witness :
    countColumn (runChunks m1 [[rec1]]) 2 ≤ (runChunks m1 [[rec1]]).nRecordsWithAnyGoAnn ∧
    (∃ q : ℚ, freqColumn (runChunks m1 [[rec1]]) 2 = some q ∧ 0 ≤ q ∧ q ≤ 1) := by
  have hinj : ∀ a b ix, m1.goIdToIndex a = some ix → m1.goIdToIndex b = some ix → a = b := by
    intro a b ix ha hb
    by_cases ha0 : a = "GO:0000" <;> by_cases ha1 : a = "GO:0001" <;>
      by_cases hb0 : b = "GO:0000" <;> by_cases hb1 : b = "GO:0001" <;>
        simp [m1, ha0, ha1, hb0, hb1] at ha hb <;> first
          | rw [ha0, hb0]
          | rw [ha1, hb1]
          | omega
  have h := count_freq_finalization m1 hinj [[rec1]]
  exact ⟨h.1 2, h.2.2.1 (by decide) 2⟩

/-- The chunk-buffering state of the parser: the pending `_chunk_indices`
and `_chunk_records` buffers, plus the chunks already flushed by
`_save_current_chunk` (appended, in order, to the output table). -/
structure ChunkState (α : Type) where
  chunkIndices : List Nat
  chunkRecords : List α
  flushed : List (List Nat × List α)

/-- The buffering part of `_process_entry` for one element at stream
position `i`: append to both buffers, then flush exactly when the record
buffer's length has reached `chunk_size`. -/
def processEntry {α : Type} (size : Nat) (st : ChunkState α) (i : Nat) (r : α) : ChunkState α :=
  let ci := st.chunkIndices ++ [i]
  let cr := st.chunkRecords ++ [r]
  if size ≤ cr.length then ⟨[], [], st.flushed ++ [(ci, cr)]⟩
  else ⟨ci, cr, st.flushed⟩

/-- Driving the stream as `_etree_fast_iter` does: elements are fed to
`_process_entry` in order, tagged with their 0-based enumeration index. -/
def runEntries {α : Type} (size : Nat) : ChunkState α → Nat → List α → ChunkState α
  | st, _, [] => st
  | st, i, r :: rs => runEntries size (processEntry size st i r) (i + 1) rs

/-- The end-of-stream step of `parse`: flush once more exactly when the
buffer is nonempty. -/
def finalFlush {α : Type} (st : ChunkState α) : ChunkState α :=
  if 0 < st.chunkRecords.length then
    ⟨[], [], st.flushed ++ [(st.chunkIndices, st.chunkRecords)]⟩
  else st

/-- Embedding of `parse`'s stream phase: process every element in order,
then the end-of-stream flush. -/
def parseStream {α : Type} (size : Nat) (inputs : List α) : ChunkState α :=
  finalFlush (runEntries size ⟨[], [], []⟩ 0 inputs)

/-- The full-size chunks flushed after `m` elements of the stream. -/
def midChunks {α : Type} (s : Nat) (inputs : List α) (m : Nat) : List (List Nat × List α) :=
  (List.range (m / s)).map (fun j => (List.range' (s * j) s, (inputs.drop (s * j)).take s))

/-- The pending index buffer after `m` elements of the stream. -/
def bufIdx (s m : Nat) : List Nat :=
  List.range' (s * (m / s)) (m % s)

/-- The pending record buffer after `m` elements of the stream. -/
def bufRec {α : Type} (s : Nat) (inputs : List α) (m : Nat) : List α :=
  (inputs.drop (s * (m / s))).take (m % s)

theorem bufIdx_length (s m : Nat) : (bufIdx s m).length = m % s := by
  simp [bufIdx]

theorem bufRec_length {α : Type} (s : Nat) (inputs : List α) (m : Nat) (h : m ≤ inputs.length) :
    (bufRec s inputs m).length = m % s := by
  have hdm : s * (m / s) + m % s = m := Nat.div_add_mod m s
  simp only [bufRec, List.length_take, List.length_drop]
  omega

theorem runEntries_canonical {α : Type} (s : Nat) (hs : 1 ≤ s) (inputs : List α) :
    ∀ (rs : List α) (m : Nat), rs = inputs.drop m → m ≤ inputs.length →
      runEntries s ⟨bufIdx s m, bufRec s inputs m, midChunks s inputs m⟩ m rs
        = ⟨bufIdx s inputs.length, bufRec s inputs inputs.length,
            midChunks s inputs inputs.length⟩ := by
  intro rs
  induction rs with
  | nil =>
    intro m hdrop hle
    have hm : m = inputs.length := by
      have := congrArg List.length hdrop
      simp at this
      omega
    subst hm
    rfl
  | cons r rs ih =>
    intro m hdrop hle
    have hmlt : m < inputs.length := by
      by_contra hge
      have : inputs.drop m = [] := List.drop_eq_nil_of_le (by omega)
      rw [this] at hdrop
      exact absurd hdrop (by simp)
    have hdm : s * (m / s) + m % s = m := Nat.div_add_mod m s
    have hmod : m % s < s := Nat.mod_lt _ (by omega)
    have hdrop1 : rs = inputs.drop (m + 1) := by
      have : inputs.drop (m + 1) = (inputs.drop m).drop 1 := by
        rw [List.drop_drop]
      rw [this, ← hdrop]
      rfl
    have hcr : bufRec s inputs m ++ [r] = (inputs.drop (s * (m / s))).take (m % s + 1) := by
      rw [List.take_add]
      congr 1
      have hD : (inputs.drop (s * (m / s))).drop (m % s) = inputs.drop m := by
        rw [List.drop_drop]
        congr 1
        try omega
      rw [hD, ← hdrop]
      try rfl
    have hci : bufIdx s m ++ [m] = List.range' (s * (m / s)) (m % s + 1) := by
      have h1 : List.range' (s * (m / s)) (m % s) ++ List.range' (s * (m / s) + 1 * (m % s)) 1
          = List.range' (s * (m / s)) (1 + m % s) := List.range'_append _ _ _ _
      simp only [one_mul, List.range'_one] at h1
      rw [bufIdx]
      rw [hdm] at h1
      rw [h1]
      congr 1
      omega
    have hcrlen : (bufRec s inputs m ++ [r]).length = m % s + 1 := by
      simp [bufRec_length s inputs m (by omega)]
    show runEntries s (processEntry s _ m r) (m + 1) rs = _
    unfold processEntry
    by_cases hflush : s ≤ (bufRec s inputs m ++ [r]).length
    · have hfull : m % s + 1 = s := by omega
      have hdiv1 : (m + 1) / s = m / s + 1 := by
        have hm1 : m + 1 = s * (m / s + 1) := by
          rw [Nat.mul_add]
          omega
        rw [hm1, Nat.mul_div_cancel_left _ (by omega : 0 < s)]
      have hmod1 : (m + 1) % s = 0 := by
        have hm1 : m + 1 = s * (m / s + 1) := by
          rw [Nat.mul_add]
          omega
        rw [hm1]
        exact Nat.mul_mod_right s _
      rw [if_pos hflush]
      have hmid : midChunks s inputs (m + 1)
          = midChunks s inputs m
            ++ [(List.range' (s * (m / s)) s, (inputs.drop (s * (m / s))).take s)] := by
        unfold midChunks
        rw [hdiv1, List.range_succ, List.map_append]
        rfl
      have hstate :
          (⟨[], [], midChunks s inputs m ++ [(bufIdx s m ++ [m], bufRec s inputs m ++ [r])]⟩
            : ChunkState α)
          = ⟨bufIdx s (m + 1), bufRec s inputs (m + 1), midChunks s inputs (m + 1)⟩ := by
        rw [hmid, hci, hcr, hfull]
        simp [bufIdx, bufRec, hmod1]
      rw [hstate]
      exact ih (m + 1) hdrop1 (by omega)
    · have hpart : m % s + 1 < s := by omega
      have hdiv1 : (m + 1) / s = m / s := by
        have hm1 : m + 1 = s * (m / s) + (m % s + 1) := by omega
        rw [hm1, Nat.mul_add_div (by omega : 0 < s), Nat.div_eq_of_lt hpart]
        try omega
      have hmod1 : (m + 1) % s = m % s + 1 := by
        have hm1 : m + 1 = s * (m / s) + (m % s + 1) := by omega
        rw [hm1, Nat.mul_add_mod, Nat.mod_eq_of_lt hpart]
      rw [if_neg hflush]
      have hstate :
          (⟨bufIdx s m ++ [m], bufRec s inputs m ++ [r], midChunks s inputs m⟩ : ChunkState α)
          = ⟨bufIdx s (m + 1), bufRec s inputs (m + 1), midChunks s inputs (m + 1)⟩ := by
        rw [hci, hcr]
        have hmid : midChunks s inputs (m + 1) = midChunks s inputs m := by
          unfold midChunks
          rw [hdiv1]
        rw [hmid]
        simp [bufIdx, bufRec, hdiv1, hmod1]
      rw [hstate]
      exact ih (m + 1) hdrop1 (by omega)

theorem parseStream_eq {α : Type} (s : Nat) (hs : 1 ≤ s) (inputs : List α) :
    parseStream s inputs
      = if inputs.length % s = 0 then
          ⟨[], [], midChunks s inputs inputs.length⟩
        else
          ⟨[], [], midChunks s inputs inputs.length
              ++ [(bufIdx s inputs.length, bufRec s inputs inputs.length)]⟩ := by
  have h0 : (⟨[], [], []⟩ : ChunkState α)
      = ⟨bufIdx s 0, bufRec s inputs 0, midChunks s inputs 0⟩ := by
    simp [bufIdx, bufRec, midChunks]
  have hrun := runEntries_canonical s hs inputs inputs 0 rfl (by omega)
  unfold parseStream
  rw [h0, hrun]
  unfold finalFlush
  have hblen : (bufRec s inputs inputs.length).length = inputs.length % s :=
    bufRec_length s inputs inputs.length (Nat.le_refl _)
  by_cases hz : inputs.length % s = 0
  · rw [if_pos hz]
    have : ¬0 < (bufRec s inputs inputs.length).length := by omega
    rw [if_neg this]
    have hb : bufRec s inputs inputs.length = [] := by
      rw [← List.length_eq_zero]
      omega
    have hbi : bufIdx s inputs.length = [] := by
      simp [bufIdx, hz]
    rw [hb, hbi]
  · rw [if_neg hz]
    have : 0 < (bufRec s inputs inputs.length).length := by omega
    rw [if_pos this]

theorem flatten_midChunks_fst {α : Type} (s : Nat) (inputs : List α) :
    ∀ q : Nat, (((List.range q).map
        (fun j => (List.range' (s * j) s, (inputs.drop (s * j)).take s))).map Prod.fst).flatten
      = List.range' 0 (s * q) := by
  intro q
  induction q with
  | zero => simp
  | succ q ih =>
    rw [List.range_succ, List.map_append, List.map_append, List.flatten_append, ih]
    have h1 : List.range' 0 (s * q) ++ List.range' (0 + 1 * (s * q)) s
        = List.range' 0 (s + s * q) := List.range'_append _ _ _ _
    simp only [one_mul, Nat.zero_add] at h1
    simp only [List.map_cons, List.map_nil, List.flatten_cons, List.flatten_nil,
      List.append_nil]
    rw [h1]
    congr 1
    ring

theorem flatten_midChunks_snd {α : Type} (s : Nat) (inputs : List α) :
    ∀ q : Nat, (((List.range q).map
        (fun j => (List.range' (s * j) s, (inputs.drop (s * j)).take s))).map Prod.snd).flatten
      = inputs.take (s * q) := by
  intro q
  induction q with
  | zero => simp
  | succ q ih =>
    rw [List.range_succ, List.map_append, List.map_append, List.flatten_append, ih]
    simp only [List.map_cons, List.map_nil, List.flatten_cons, List.flatten_nil,
      List.append_nil]
    have h1 : inputs.take (s * (q + 1)) = inputs.take (s * q + s) := by
      congr 1
      try ring
    rw [h1, List.take_add]

/-- C6: for every input stream and configured chunk size (at least 1),
records are flushed in chunks of exactly the configured size, with one
additional unconditional end-of-stream flush exactly when the buffer is
nonempty; every flushed chunk is nonempty; the stored row keys are, in
flush order, exactly the 0-based stream positions; no record is dropped and
nothing is left buffered.  In particular, a stream of 250000 elements with
chunk size 100000 produces exactly the 3 flushes covering the index ranges
0-99999, 100000-199999 and 200000-249999, strictly increasing and
non-overlapping. -/
theorem stream_chunking {α : Type} (s : Nat) (hs : 1 ≤ s) (inputs : List α) :
    (∀ p ∈ (parseStream s inputs).flushed.dropLast, p.1.length = s ∧ p.2.length = s) ∧
    (∀ p ∈ (parseStream s inputs).flushed, p.1 ≠ []) ∧
    (((parseStream s inputs).flushed.map Prod.fst).flatten = List.range inputs.length) ∧
    (((parseStream s inputs).flushed.map Prod.snd).flatten = inputs) ∧
    ((parseStream s inputs).chunkRecords = []) ∧
    (inputs.length = 250000 → s = 100000 →
      (parseStream s inputs).flushed.map Prod.fst
        = [List.range' 0 100000, List.range' 100000 100000, List.range' 200000 50000]) := by
  have hN := parseStream_eq s hs inputs
  have hmidmem : ∀ p ∈ midChunks s inputs inputs.length, p.1.length = s ∧ p.2.length = s := by
    intro p hp
    obtain ⟨j, hj, hpj⟩ := List.mem_map.mp hp
    rw [List.mem_range] at hj
    have hjs : s * j + s ≤ inputs.length := by
      have h1 : j + 1 ≤ inputs.length / s := hj
      have h2 : s * (j + 1) ≤ s * (inputs.length / s) := Nat.mul_le_mul_left s h1
      have h3 : s * (inputs.length / s) ≤ inputs.length := Nat.mul_div_le _ _
      have h4 : s * (j + 1) = s * j + s := by ring
      omega
    rw [← hpj]
    constructor
    · simp
    · simp only [List.length_take, List.length_drop]
      omega
  have hdm : s * (inputs.length / s) + inputs.length % s = inputs.length :=
    Nat.div_add_mod _ _
  have hmod : inputs.length % s < s := Nat.mod_lt _ (by omega)
  refine ⟨?_, ?_, ?_, ?_, ?_, ?_⟩
  · intro p hp
    rw [hN] at hp
    by_cases hz : inputs.length % s = 0
    · rw [if_pos hz] at hp
      exact hmidmem p ((List.dropLast_sublist _).subset hp)
    · rw [if_neg hz] at hp
      simp only [List.dropLast_concat] at hp
      exact hmidmem p hp
  · intro p hp
    rw [hN] at hp
    have hmidne : ∀ p ∈ midChunks s inputs inputs.length, p.1 ≠ [] := by
      intro p hpmid he
      have := (hmidmem p hpmid).1
      rw [he] at this
      simp at this
      omega
    by_cases hz : inputs.length % s = 0
    · rw [if_pos hz] at hp
      exact hmidne p hp
    · rw [if_neg hz] at hp
      rcases List.mem_append.mp hp with hmem | hmem
      · exact hmidne p hmem
      · have hpe : p = (bufIdx s inputs.length, bufRec s inputs inputs.length) := by
          simpa using hmem
        rw [hpe]
        intro he
        have := congrArg List.length he
        rw [bufIdx_length] at this
        simp at this
        omega
  · rw [hN]
    by_cases hz : inputs.length % s = 0
    · rw [if_pos hz]
      show ((midChunks s inputs inputs.length).map Prod.fst).flatten = _
      unfold midChunks
      rw [flatten_midChunks_fst, List.range_eq_range']
      congr 1
      omega
    · rw [if_neg hz]
      show (((midChunks s inputs inputs.length) ++ _).map Prod.fst).flatten = _
      rw [List.map_append, List.flatten_append]
      unfold midChunks
      rw [flatten_midChunks_fst]
      simp only [List.map_cons, List.map_nil, List.flatten_cons, List.flatten_nil,
        List.append_nil]
      show _ ++ bufIdx s inputs.length = _
      unfold bufIdx
      have h1 : List.range' 0 (s * (inputs.length / s))
            ++ List.range' (0 + 1 * (s * (inputs.length / s))) (inputs.length % s)
          = List.range' 0 (inputs.length % s + s * (inputs.length / s)) :=
        List.range'_append _ _ _ _
      simp only [one_mul, Nat.zero_add] at h1
      rw [h1, List.range_eq_range']
      congr 1
      omega
  · rw [hN]
    by_cases hz : inputs.length % s = 0
    · rw [if_pos hz]
      show ((midChunks s inputs inputs.length).map Prod.snd).flatten = _
      unfold midChunks
      rw [flatten_midChunks_snd]
      have : s * (inputs.length / s) = inputs.length := by omega
      rw [this, List.take_length]
    · rw [if_neg hz]
      show (((midChunks s inputs inputs.length) ++ _).map Prod.snd).flatten = _
      rw [List.map_append, List.flatten_append]
      unfold midChunks
      rw [flatten_midChunks_snd]
      simp only [List.map_cons, List.map_nil, List.flatten_cons, List.flatten_nil,
        List.append_nil]
      show _ ++ bufRec s inputs inputs.length = _
      unfold bufRec
      rw [← List.take_add]
      have : s * (inputs.length / s) + inputs.length % s = inputs.length := hdm
      rw [this, List.take_length]
  · rw [hN]
    by_cases hz : inputs.length % s = 0
    · rw [if_pos hz]
    · rw [if_neg hz]
  · intro hlen hsz
    subst hsz
    rw [hN]
    have hq : inputs.length / 100000 = 2 := by rw [hlen]
    have hr : inputs.length % 100000 = 50000 := by rw [hlen]
    rw [if_neg (by omega)]
    show ((midChunks _ inputs inputs.length
        ++ [(bufIdx _ inputs.length, bufRec _ inputs inputs.length)]).map Prod.fst) = _
    unfold midChunks bufIdx
    rw [hq, hr]
    simp only [List.range_succ, List.range_zero, List.nil_append, List.map_append,
      List.map_cons, List.map_nil, List.cons_append, List.append_nil]
    try norm_num

/-- C6 witness: a concrete stream of 250000 unit elements with chunk size
100000. -/
theorem stream_chunking_witness :
    (parseStream 100000 (List.replicate 250000 ())).flushed.map Prod.fst
      = [List.range' 0 100000, List.range' 100000 100000, List.range' 200000 50000] :=
  (stream_chunking 100000 (by omega) (List.replicate 250000 ())).2.2.2.2.2
    (List.length_replicate 250000 ()) rfl

/-- The numeric value of a decimal digit character, if it is one. -/
def digitVal? (c : Char) : Option Nat :=
  if 48 ≤ c.toNat ∧ c.toNat ≤ 57 then some (c.toNat - 48) else none

/-- Parse a nonempty run of decimal digits, most significant first. -/
def digitsVal? : List Char → Nat → Option Nat
  | [], acc => some acc
  | c :: cs, acc =>
    match digitVal? c with
    | some d => digitsVal? cs (acc * 10 + d)
    | none => none

/-- Embedding of Python `int(s)` on the strings that occur here: an
optional sign followed by at least one decimal digit parses to the
integer, anything else raises (returns `none`).  (Python additionally
tolerates surrounding whitespace and underscores; those inputs do not
matter to any claim and are treated as failures.) -/
def pyInt? (s : String) : Option Int :=
  match s.data with
  | [] => none
  | c :: cs =>
    if c = '-' then
      match cs with
      | [] => none
      | _ => (digitsVal? cs 0).map (fun n => -(n : Int))
    else if c = '+' then
      match cs with
      | [] => none
      | _ => (digitsVal? cs 0).map (fun n => (n : Int))
    else (digitsVal? (c :: cs) 0).map (fun n => (n : Int))

/-- A `dbReference` sub-element: its `id` attribute and its typed
`property` children as (type, value) attribute pairs. -/
structure DbRef where
  id : String
  properties : List (String × String)

/-- A `representativeMember` sub-element with its `dbReference` children. -/
structure ReprMember where
  dbReferences : List DbRef

/-- One `entry` element of the stream: its `representativeMember` children
and its own typed `property` children (where the GO category annotations
live). -/
structure Entry where
  reprMembers : List ReprMember
  properties : List (String × String)

/-- The record assembled by `_process_entry` for one stream element. -/
structure ExtractedRecord where
  taxId : Option Int
  proteinName : String
  annots : RecordAnnots

/-- The `property[@type="NCBI taxonomy"]` children of a dbReference. -/
def taxProperties (db : DbRef) : List (String × String) :=
  db.properties.filter (fun p => p.1 = "NCBI taxonomy")

/-- The taxonomy extraction of `_process_entry`: the single-element unpack
of the taxonomy property followed by `int(...)`, wrapped in a bare
`except` that turns every failure (no match, several matches, unparsable
value) into an absent id. -/
def parseTaxId (db : DbRef) : Option Int :=
  match taxProperties db with
  | [p] => pyInt? p.2
  | _ => none

/-- Embedding of `_extract_go_category`: the distinct `value` attributes of
the entry's properties of the given category type
(`list` of a Python set; the set's enumeration order is unspecified and
nothing downstream depends on it, so first-occurrence order is used). -/
def extractGoCategory (e : Entry) (cat : String) : List String :=
  ((e.properties.filter (fun p => p.1 = cat)).map (fun p => p.2)).dedup

/-- The record `_process_entry` builds when the structural unpacks go
through. -/
def mkRecord (e : Entry) (db : DbRef) : ExtractedRecord :=
  { taxId := parseTaxId db
    proteinName := db.id
    annots :=
      { mf := extractGoCategory e "GO Molecular Function"
        bp := extractGoCategory e "GO Biological Process"
        cc := extractGoCategory e "GO Cellular Component" } }

/-- Embedding of the extraction part of `_process_entry`.  `none` models
the uncaught exception raised by the two single-element unpacks (entry
without exactly one representativeMember, or representativeMember without
exactly one dbReference), which aborts the whole run; the taxonomy lookup
never contributes a failure. -/
def extractEntry (e : Entry) : Option ExtractedRecord :=
  match e.reprMembers with
  | [rm] =>
    match rm.dbReferences with
    | [db] => some (mkRecord e db)
    | _ => none
  | _ => none

theorem extractEntry_some_of (e : Entry) (rm : ReprMember) (db : DbRef)
    (hrm : e.reprMembers = [rm]) (hdb : rm.dbReferences = [db]) :
    extractEntry e = some (mkRecord e db) := by
  obtain ⟨rms, props⟩ := e
  obtain ⟨dbs⟩ := rm
  simp only at hrm hdb
  subst hrm
  subst hdb
  rfl

/-- C8: per-record extraction aborts exactly when the entry does not hold
exactly one representativeMember holding exactly one dbReference; when the
structure is right, the record is always produced — with the protein name
from the dbReference id, the GO categories extracted, and the taxonomy id
given by the fallible `parseTaxId` — so a missing or non-integer taxonomy
value never aborts and merely leaves the record's `tax_id` absent. -/
theorem extraction_abort_conditions (e : Entry) :
    ((extractEntry e).isSome ↔
      ∃ rm db, e.reprMembers = [rm] ∧ rm.dbReferences = [db]) ∧
    (∀ rm db, e.reprMembers = [rm] → rm.dbReferences = [db] →
      extractEntry e = some (mkRecord e db)) ∧
    (∀ db : DbRef, taxProperties db = [] → parseTaxId db = none) ∧
    (∀ (db : DbRef) (p : String × String),
      taxProperties db = [p] → pyInt? p.2 = none → parseTaxId db = none) := by
  refine ⟨?_, fun rm db hrm hdb => extractEntry_some_of e rm db hrm hdb, ?_, ?_⟩
  · constructor
    · intro hsome
      unfold extractEntry at hsome
      cases hrm : e.reprMembers with
      | nil => rw [hrm] at hsome; simp at hsome
      | cons rm rest =>
        cases rest with
        | cons a b => rw [hrm] at hsome; simp at hsome
        | nil =>
          rw [hrm] at hsome
          simp only at hsome
          cases hdb : rm.dbReferences with
          | nil => rw [hdb] at hsome; simp at hsome
          | cons db rest2 =>
            cases rest2 with
            | cons a b => rw [hdb] at hsome; simp at hsome
            | nil => exact ⟨rm, db, rfl, hdb⟩
    · rintro ⟨rm, db, hrm, hdb⟩
      rw [extractEntry_some_of e rm db hrm hdb]
      rfl
  · intro db h
    unfold parseTaxId
    rw [h]
  · intro db p h hparse
    unfold parseTaxId
    rw [h]
    simp only
    exact hparse

/-- C8 witness: a structurally well-formed entry whose dbReference carries
one taxonomy property with a non-numeric value. -/
theorem extraction_abort_conditions_witness :
    ((extractEntry ⟨[⟨[⟨"P1", [("NCBI taxonomy", "x")]⟩]⟩], []⟩).isSome ↔
      ∃ rm db, (⟨[⟨[⟨"P1", [("NCBI taxonomy", "x")]⟩]⟩], []⟩ : Entry).reprMembers = [rm]
        ∧ rm.dbReferences = [db]) ∧
    parseTaxId ⟨"P1", [("NCBI taxonomy", "x")]⟩ = none := by
  refine ⟨(extraction_abort_conditions _).1, ?_⟩
  exact (extraction_abort_conditions ⟨[⟨[⟨"P1", [("NCBI taxonomy", "x")]⟩]⟩], []⟩).2.2.2
    ⟨"P1", [("NCBI taxonomy", "x")]⟩ ("NCBI taxonomy", "x") (by decide) (by decide)

/-- C10: any failure of the taxonomy extraction — no taxonomy property,
more than one taxonomy property (the case the spec leaves unspecified), or
a value that does not parse as an integer — yields an absent `tax_id`
while the record is still produced (never fatal), because the whole lookup
and parse sit inside a catch-all handler. -/
theorem taxonomy_failures_never_fatal (e : Entry) (rm : ReprMember) (db : DbRef)
    (hrm : e.reprMembers = [rm]) (hdb : rm.dbReferences = [db])
    (hfail : (taxProperties db).length ≠ 1 ∨
      ∃ p, taxProperties db = [p] ∧ pyInt? p.2 = none) :
    ∃ r : ExtractedRecord, extractEntry e = some r ∧ r.taxId = none := by
  have htax : parseTaxId db = none := by
    unfold parseTaxId
    cases htp : taxProperties db with
    | nil => rfl
    | cons p rest =>
      cases rest with
      | cons a b => rfl
      | nil =>
        rcases hfail with hlen | ⟨q, hq, hparse⟩
        · rw [htp] at hlen
          simp at hlen
        · rw [htp] at hq
          have hpq : p = q := by
            have := congrArg (fun l => l.headI) hq
            simpa using this
          simp only
          rw [hpq]
          exact hparse
  exact ⟨mkRecord e db, extractEntry_some_of e rm db hrm hdb, htax⟩

/-- C10 witness: a well-formed entry whose dbReference carries two
taxonomy properties (the more-than-one case). -/
theorem taxonomy_failures_never_fatal_witness :
    ∃ r : ExtractedRecord,
      extractEntry ⟨[⟨[⟨"P2", [("NCBI taxonomy", "9606"), ("NCBI taxonomy", "10090")]⟩]⟩], []⟩
        = some r ∧ r.taxId = none :=
  taxonomy_failures_never_fatal _ _ _ rfl rfl (Or.inl (by decide))

/-- The is-a graph over the dense term indices: `children i` embeds the
`index_to_direct_children` dict built by
`_add_children_and_parents_to_go_annotations_meta` (the function is generic
in its key type; dense indices stand for the table's keys). -/
structure TermGraph (n : Nat) where
  children : Fin n → Finset (Fin n)

/-- The direct parents of a term, the inverse of the children table (the
source builds `direct_parents` and `direct_children` from the same is-a
edges, so they are exact inverses). -/
def parentsOf {n : Nat} (g : TermGraph n) (i : Fin n) : Finset (Fin n) :=
  Finset.univ.filter (fun p => i ∈ g.children p)

/-- The terms with an empty `direct_parents` set: the root argument of the
all-ancestors pass. -/
def noParentTerms {n : Nat} (g : TermGraph n) : Finset (Fin n) :=
  Finset.univ.filter (fun i => parentsOf g i = ∅)

/-- The terms with an empty `direct_children` set: the root argument of the
all-offspring pass. -/
def noChildTerms {n : Nat} (g : TermGraph n) : Finset (Fin n) :=
  Finset.univ.filter (fun i => g.children i = ∅)

/-- The graph with is-a edges inverted: feeding `direct_parents` to
`_get_index_to_all_ancestors` as its children table. -/
def reverseGraph {n : Nat} (g : TermGraph n) : TermGraph n :=
  ⟨fun i => parentsOf g i⟩

/-- The state `index_to_all_ancestors` of `_get_index_to_all_ancestors`:
one set per term. -/
abbrev AncMap (n : Nat) := Fin n → Finset (Fin n)

/-- The inner loop of one scan step: for each child of `idx` (enumerated in
the given order), union the child's set with `idx`'s current set, and add
the child to the scanned set. -/
def innerScan {n : Nat} (idx : Fin n) :
    AncMap n → Finset (Fin n) → List (Fin n) → AncMap n × Finset (Fin n)
  | anc, scanned, [] => (anc, scanned)
  | anc, scanned, c :: cs =>
    innerScan idx (Function.update anc c (anc c ∪ anc idx)) (insert c scanned) cs

/-- One full iteration of the while loop: scan every frontier index (in the
given order), accumulating `scanned_child_indices` from the empty set. -/
def outerScan {n : Nat} (cen : Fin n → List (Fin n)) :
    AncMap n → Finset (Fin n) → List (Fin n) → AncMap n × Finset (Fin n)
  | anc, scanned, [] => (anc, scanned)
  | anc, scanned, i :: is =>
    let r := innerScan i anc scanned (cen i)
    outerScan cen r.1 r.2 is

/-- The while loop of `_get_index_to_all_ancestors`, with explicit fuel
(the loop terminates only on acyclic inputs; the theorems below show the
fuel is never exhausted when it is at least the number of terms).
`C k i` enumerates `index_to_direct_children[i]` as iterated at iteration
`k`, and `S k f` enumerates the frontier set `f` at iteration `k` — Python
set iteration order is unspecified, so both are arbitrary parameters
constrained only to enumerate the right sets. -/
def loopScan {n : Nat} (C : Nat → Fin n → List (Fin n))
    (S : Nat → Finset (Fin n) → List (Fin n)) :
    Nat → Nat → AncMap n → Finset (Fin n) → AncMap n
  | _, 0, anc, _ => anc
  | k, fuel + 1, anc, frontier =>
    if frontier = ∅ then anc
    else
      let r := outerScan (C k) anc ∅ (S k frontier)
      loopScan C S (k + 1) fuel r.1 r.2

/-- Embedding of `_get_index_to_all_ancestors(index_to_direct_children,
root_indices)`: every set starts as the singleton of its own key, the
frontier starts as the root set, and the while loop runs to completion. -/
def getIndexToAllAncestors {n : Nat} (C : Nat → Fin n → List (Fin n))
    (S : Nat → Finset (Fin n) → List (Fin n)) (fuel : Nat)
    (rootIndices : Finset (Fin n)) : AncMap n :=
  loopScan C S 0 fuel (fun i => {i}) rootIndices

/-- The one-step child relation of the graph: `childRel g a b` holds when
`b` is a direct child of `a`. -/
def childRel {n : Nat} (g : TermGraph n) (a b : Fin n) : Prop :=
  b ∈ g.children a

/-- `strictAnc g a b`: `a` is a strict ancestor of `b` (a nonempty chain of
is-a child edges leads from `a` down to `b`). -/
def strictAnc {n : Nat} (g : TermGraph n) (a b : Fin n) : Prop :=
  Relation.TransGen (childRel g) a b

/-- Acyclicity of the is-a graph. -/
def AcyclicG {n : Nat} (g : TermGraph n) : Prop :=
  ∀ i, ¬ strictAnc g i i

/-- The frontier sets of the layered scan, which are independent of the
enumeration orders: the set scanned at iteration `k` starting from the
roots `R`. -/
def frontierFrom {n : Nat} (g : TermGraph n) (R : Finset (Fin n)) : Nat → Finset (Fin n)
  | 0 => R
  | k + 1 => (frontierFrom g R k).biUnion g.children

/-- The soundness invariant: every set holds only the key itself and its
strict ancestors. -/
def AncInv {n : Nat} (g : TermGraph n) (anc : AncMap n) : Prop :=
  ∀ x y, y ∈ anc x → y = x ∨ strictAnc g y x

theorem update_subset {n : Nat} (anc : AncMap n) (c idx y : Fin n) :
    anc y ⊆ Function.update anc c (anc c ∪ anc idx) y := by
  by_cases h : y = c
  · subst h
    rw [Function.update_same]
    exact Finset.subset_union_left
  · rw [Function.update_noteq h]

theorem innerScan_fst_mono {n : Nat} (idx : Fin n) (cs : List (Fin n)) :
    ∀ anc scanned x, anc x ⊆ (innerScan idx anc scanned cs).1 x := by
  induction cs with
  | nil => intro anc scanned x; exact Finset.Subset.refl _
  | cons c cs ih =>
    intro anc scanned x
    exact (update_subset anc c idx x).trans (ih _ _ x)

theorem innerScan_fst_lb {n : Nat} (idx : Fin n) (cs : List (Fin n)) :
    ∀ anc scanned x, x ∈ cs → anc idx ⊆ (innerScan idx anc scanned cs).1 x := by
  induction cs with
  | nil => intro anc scanned x hx; exact absurd hx (List.not_mem_nil x)
  | cons c cs ih =>
    intro anc scanned x hx
    rcases List.mem_cons.mp hx with hxc | hxcs
    · subst hxc
      have h1 : anc idx ⊆ Function.update anc x (anc x ∪ anc idx) x := by
        rw [Function.update_same]
        exact Finset.subset_union_right
      exact h1.trans (innerScan_fst_mono idx cs _ _ x)
    · have h1 : anc idx ⊆ Function.update anc c (anc c ∪ anc idx) idx :=
        update_subset anc c idx idx
      exact h1.trans (ih _ _ x hxcs)

theorem innerScan_fst_sound {n : Nat} (g : TermGraph n) (idx : Fin n) (cs : List (Fin n))
    (hcs : ∀ c ∈ cs, c ∈ g.children idx) :
    ∀ anc scanned, AncInv g anc → AncInv g (innerScan idx anc scanned cs).1 := by
  induction cs with
  | nil => intro anc scanned hinv; exact hinv
  | cons c cs ih =>
    intro anc scanned hinv
    refine ih (fun d hd => hcs d (List.mem_cons_of_mem c hd)) _ _ ?_
    intro x y hy
    by_cases hxc : x = c
    · subst hxc
      rw [Function.update_same] at hy
      rcases Finset.mem_union.mp hy with hy1 | hy2
      · exact hinv x y hy1
      · have hedge : childRel g idx x := hcs x (List.mem_cons_self x cs)
        rcases hinv idx y hy2 with hyi | hyi
        · subst hyi
          exact Or.inr (Relation.TransGen.single hedge)
        · exact Or.inr (hyi.tail hedge)
    · rw [Function.update_noteq hxc] at hy
      exact hinv x y hy

theorem innerScan_snd {n : Nat} (idx : Fin n) (cs : List (Fin n)) :
    ∀ anc scanned, (innerScan idx anc scanned cs).2 = scanned ∪ cs.toFinset := by
  induction cs with
  | nil => intro anc scanned; simp [innerScan]
  | cons c cs ih =>
    intro anc scanned
    show (innerScan idx _ (insert c scanned) cs).2 = _
    rw [ih]
    ext x
    simp [List.toFinset_cons, Finset.mem_insert, Finset.mem_union]
    try tauto

theorem outerScan_fst_mono {n : Nat} (cen : Fin n → List (Fin n)) (is : List (Fin n)) :
    ∀ anc scanned x, anc x ⊆ (outerScan cen anc scanned is).1 x := by
  induction is with
  | nil => intro anc scanned x; exact Finset.Subset.refl _
  | cons i is ih =>
    intro anc scanned x
    exact (innerScan_fst_mono i (cen i) anc scanned x).trans (ih _ _ x)

theorem outerScan_fst_lb {n : Nat} (cen : Fin n → List (Fin n)) (is : List (Fin n)) :
    ∀ anc scanned i x, i ∈ is → x ∈ cen i →
      anc i ⊆ (outerScan cen anc scanned is).1 x := by
  induction is with
  | nil => intro anc scanned i x hi; exact absurd hi (List.not_mem_nil i)
  | cons a as ih =>
    intro anc scanned i x hi hx
    rcases List.mem_cons.mp hi with hia | hias
    · subst hia
      have h1 : anc i ⊆ (innerScan i anc scanned (cen i)).1 x :=
        innerScan_fst_lb i (cen i) anc scanned x hx
      exact h1.trans (outerScan_fst_mono cen as _ _ x)
    · have h1 : anc i ⊆ (innerScan a anc scanned (cen a)).1 i :=
        innerScan_fst_mono a (cen a) anc scanned i
      exact h1.trans (ih _ _ i x hias hx)

theorem outerScan_fst_sound {n : Nat} (g : TermGraph n) (cen : Fin n → List (Fin n))
    (is : List (Fin n)) (hcen : ∀ i, ∀ c ∈ cen i, c ∈ g.children i) :
    ∀ anc scanned, AncInv g anc → AncInv g (outerScan cen anc scanned is).1 := by
  induction is with
  | nil => intro anc scanned hinv; exact hinv
  | cons a as ih =>
    intro anc scanned hinv
    exact ih _ _ (innerScan_fst_sound g a (cen a) (hcen a) anc scanned hinv)

theorem mem_outerScan_snd {n : Nat} (cen : Fin n → List (Fin n)) (is : List (Fin n)) :
    ∀ anc scanned x,
      x ∈ (outerScan cen anc scanned is).2 ↔ x ∈ scanned ∨ ∃ i ∈ is, x ∈ cen i := by
  induction is with
  | nil => intro anc scanned x; simp [outerScan]
  | cons a as ih =>
    intro anc scanned x
    show x ∈ (outerScan cen _ (innerScan a anc scanned (cen a)).2 as).2 ↔ _
    rw [ih, innerScan_snd]
    simp only [Finset.mem_union, List.mem_toFinset, List.mem_cons]
    constructor
    · rintro ((hx | hx) | ⟨i, hi, hx⟩)
      · exact Or.inl hx
      · exact Or.inr ⟨a, Or.inl rfl, hx⟩
      · exact Or.inr ⟨i, Or.inr hi, hx⟩
    · rintro (hx | ⟨i, hia | hias, hx⟩)
      · exact Or.inl (Or.inl hx)
      · subst hia
        exact Or.inl (Or.inr hx)
      · exact Or.inr ⟨i, hias, hx⟩

theorem outerScan_snd_frontier {n : Nat} (g : TermGraph n) (cen : Fin n → List (Fin n))
    (is : List (Fin n)) (F : Finset (Fin n))
    (hcen : ∀ i, (cen i).toFinset = g.children i) (his : is.toFinset = F)
    (anc : AncMap n) :
    (outerScan cen anc ∅ is).2 = F.biUnion g.children := by
  ext x
  rw [mem_outerScan_snd]
  simp only [Finset.not_mem_empty, false_or, Finset.mem_biUnion]
  constructor
  · rintro ⟨i, hi, hx⟩
    refine ⟨i, ?_, ?_⟩
    · rw [← his]
      exact List.mem_toFinset.mpr hi
    · rw [← hcen i]
      exact List.mem_toFinset.mpr hx
  · rintro ⟨i, hi, hx⟩
    refine ⟨i, ?_, ?_⟩
    · rw [← his] at hi
      exact List.mem_toFinset.mp hi
    · rw [← hcen i] at hx
      exact List.mem_toFinset.mp hx

theorem mem_parentsOf {n : Nat} {g : TermGraph n} {p i : Fin n} :
    p ∈ parentsOf g i ↔ i ∈ g.children p := by
  simp [parentsOf]

theorem mem_noParentTerms {n : Nat} {g : TermGraph n} {i : Fin n} :
    i ∈ noParentTerms g ↔ parentsOf g i = ∅ := by
  simp [noParentTerms]

/-- The state after `k` unconditional iterations of the scan: the ancestor
map and the frontier. -/
def iterState {n : Nat} (C : Nat → Fin n → List (Fin n))
    (S : Nat → Finset (Fin n) → List (Fin n)) (R : Finset (Fin n)) :
    Nat → AncMap n × Finset (Fin n)
  | 0 => (fun i => ({i} : Finset (Fin n)), R)
  | k + 1 =>
    let st := iterState C S R k
    outerScan (C k) st.1 ∅ (S k st.2)

theorem iterState_snd {n : Nat} (g : TermGraph n) (C : Nat → Fin n → List (Fin n))
    (S : Nat → Finset (Fin n) → List (Fin n)) (R : Finset (Fin n))
    (hC : ∀ k i, (C k i).toFinset = g.children i) (hS : ∀ k f, (S k f).toFinset = f) :
    ∀ k, (iterState C S R k).2 = frontierFrom g R k := by
  intro k
  induction k with
  | zero => rfl
  | succ k ih =>
    show (outerScan (C k) _ ∅ (S k (iterState C S R k).2)).2 = _
    rw [ih]
    exact outerScan_snd_frontier g (C k) _ _ (hC k) (hS k _) _

theorem iterState_fst_mono_le {n : Nat} (C : Nat → Fin n → List (Fin n))
    (S : Nat → Finset (Fin n) → List (Fin n)) (R : Finset (Fin n)) (k m : Nat)
    (hkm : k ≤ m) (x y : Fin n) (hy : y ∈ (iterState C S R k).1 x) :
    y ∈ (iterState C S R m).1 x := by
  induction m, hkm using Nat.le_induction with
  | base => exact hy
  | succ m hm ih =>
    exact outerScan_fst_mono (C m) _ _ _ x ih

theorem iterState_self {n : Nat} (C : Nat → Fin n → List (Fin n))
    (S : Nat → Finset (Fin n) → List (Fin n)) (R : Finset (Fin n)) (k : Nat) (x : Fin n) :
    x ∈ (iterState C S R k).1 x := by
  have h0 : x ∈ (iterState C S R 0).1 x := Finset.mem_singleton_self x
  exact iterState_fst_mono_le C S R 0 k (Nat.zero_le k) x x h0

theorem iterState_sound {n : Nat} (g : TermGraph n) (C : Nat → Fin n → List (Fin n))
    (S : Nat → Finset (Fin n) → List (Fin n)) (R : Finset (Fin n))
    (hC : ∀ k i, (C k i).toFinset = g.children i) :
    ∀ k, AncInv g (iterState C S R k).1 := by
  intro k
  induction k with
  | zero =>
    intro x y hy
    exact Or.inl (Finset.mem_singleton.mp hy)
  | succ k ih =>
    have hcen : ∀ i, ∀ c ∈ C k i, c ∈ g.children i := by
      intro i c hc
      rw [← hC k i]
      exact List.mem_toFinset.mpr hc
    exact outerScan_fst_sound g (C k) _ hcen _ _ ih

theorem iterState_step_lb {n : Nat} (g : TermGraph n) (C : Nat → Fin n → List (Fin n))
    (S : Nat → Finset (Fin n) → List (Fin n)) (R : Finset (Fin n))
    (hC : ∀ k i, (C k i).toFinset = g.children i) (hS : ∀ k f, (S k f).toFinset = f)
    (k : Nat) (P X : Fin n) (hP : P ∈ frontierFrom g R k) (hX : X ∈ g.children P) :
    (iterState C S R k).1 P ⊆ (iterState C S R (k + 1)).1 X := by
  show (iterState C S R k).1 P ⊆ (outerScan (C k) _ ∅ (S k (iterState C S R k).2)).1 X
  apply outerScan_fst_lb
  · rw [← List.mem_toFinset, hS k, iterState_snd g C S R hC hS k]
    exact hP
  · rw [← List.mem_toFinset, hC k P]
    exact hX

/-- The set of strict ancestors of a term. -/
def strictAncSet {n : Nat} (g : TermGraph n) (b : Fin n) : Set (Fin n) :=
  {a | strictAnc g a b}

/-- The number of strict ancestors of a term, the measure for the layered
propagation argument. -/
noncomputable def rankOf {n : Nat} (g : TermGraph n) (b : Fin n) : Nat :=
  (strictAncSet g b).ncard

theorem rankOf_lt_of_parent {n : Nat} (g : TermGraph n) (hacy : AcyclicG g) (P X : Fin n)
    (h : P ∈ parentsOf g X) : rankOf g P < rankOf g X := by
  have hedge : childRel g P X := mem_parentsOf.mp h
  apply Set.ncard_lt_ncard
  · constructor
    · intro a ha
      exact Relation.TransGen.tail ha hedge
    · intro hsub
      have hPX : P ∈ strictAncSet g X := Relation.TransGen.single hedge
      exact hacy P (hsub hPX)
  · exact Set.toFinite _

theorem rankOf_lt_card {n : Nat} (g : TermGraph n) (hacy : AcyclicG g) (b : Fin n) :
    rankOf g b < n := by
  have h1 : strictAncSet g b ⊂ Set.univ := by
    constructor
    · exact Set.subset_univ _
    · intro hsub
      exact hacy b (hsub (Set.mem_univ b))
  have h2 := Set.ncard_lt_ncard h1 (Set.toFinite _)
  simpa [Set.ncard_univ, Nat.card_eq_fintype_card] using h2

/-- A chain of exactly `k` child edges from `a` down to `b`. -/
def reachesIn {n : Nat} (g : TermGraph n) : Nat → Fin n → Fin n → Prop
  | 0, a, b => b = a
  | k + 1, a, b => ∃ c, reachesIn g k a c ∧ b ∈ g.children c

theorem mem_frontierFrom {n : Nat} (g : TermGraph n) (R : Finset (Fin n)) :
    ∀ k x, x ∈ frontierFrom g R k ↔ ∃ r ∈ R, reachesIn g k r x := by
  intro k
  induction k with
  | zero =>
    intro x
    show x ∈ R ↔ _
    simp only [reachesIn]
    constructor
    · intro h
      exact ⟨x, h, rfl⟩
    · rintro ⟨r, hr, he⟩
      rw [he]
      exact hr
  | succ k ih =>
    intro x
    show x ∈ (frontierFrom g R k).biUnion g.children ↔ _
    simp only [reachesIn, Finset.mem_biUnion]
    constructor
    · rintro ⟨p, hp, hx⟩
      obtain ⟨r, hr, hre⟩ := (ih p).mp hp
      exact ⟨r, hr, p, hre, hx⟩
    · rintro ⟨r, hr, c, hrc, hx⟩
      exact ⟨c, (ih c).mpr ⟨r, hr, hrc⟩, hx⟩

theorem reachesIn_rank_le {n : Nat} (g : TermGraph n) (hacy : AcyclicG g) :
    ∀ k (a b : Fin n), reachesIn g k a b → k ≤ rankOf g b := by
  intro k
  induction k with
  | zero => intro a b _; exact Nat.zero_le _
  | succ k ih =>
    intro a b h
    obtain ⟨c, hrc, hb⟩ := h
    have h1 : k ≤ rankOf g c := ih a c hrc
    have h2 : rankOf g c < rankOf g b :=
      rankOf_lt_of_parent g hacy c b (mem_parentsOf.mpr hb)
    omega

theorem frontierFrom_empty_of_ge {n : Nat} (g : TermGraph n) (R : Finset (Fin n))
    (hacy : AcyclicG g) (k : Nat) (hk : n ≤ k) : frontierFrom g R k = ∅ := by
  rw [Finset.eq_empty_iff_forall_not_mem]
  intro x hx
  obtain ⟨r, _, hre⟩ := (mem_frontierFrom g R k x).mp hx
  have h1 := reachesIn_rank_le g hacy k r x hre
  have h2 := rankOf_lt_card g hacy x
  omega

theorem frontierFrom_empty_mono {n : Nat} (g : TermGraph n) (R : Finset (Fin n)) (k : Nat)
    (hk : frontierFrom g R k = ∅) : ∀ m, k ≤ m → frontierFrom g R m = ∅ := by
  intro m hm
  induction m, hm using Nat.le_induction with
  | base => exact hk
  | succ m _ ih =>
    show (frontierFrom g R m).biUnion g.children = ∅
    rw [ih]
    rfl

theorem iterState_stable {n : Nat} (g : TermGraph n) (C : Nat → Fin n → List (Fin n))
    (S : Nat → Finset (Fin n) → List (Fin n)) (R : Finset (Fin n))
    (hC : ∀ k i, (C k i).toFinset = g.children i) (hS : ∀ k f, (S k f).toFinset = f)
    (k : Nat) (hk : frontierFrom g R k = ∅) :
    ∀ m, k ≤ m → (iterState C S R m).1 = (iterState C S R k).1 := by
  intro m hm
  induction m, hm using Nat.le_induction with
  | base => rfl
  | succ m hm ih =>
    show (outerScan (C m) _ ∅ (S m (iterState C S R m).2)).1 = _
    have h2 : (iterState C S R m).2 = ∅ := by
      rw [iterState_snd g C S R hC hS m]
      exact frontierFrom_empty_mono g R k hk m hm
    rw [h2]
    have hSnil : S m (∅ : Finset (Fin n)) = [] :=
      (List.toFinset_eq_empty_iff _).mp (hS m ∅)
    rw [hSnil]
    exact ih

theorem loopScan_eq_iterState {n : Nat} (g : TermGraph n) (C : Nat → Fin n → List (Fin n))
    (S : Nat → Finset (Fin n) → List (Fin n)) (R : Finset (Fin n))
    (hC : ∀ k i, (C k i).toFinset = g.children i) (hS : ∀ k f, (S k f).toFinset = f) :
    ∀ fuel k, frontierFrom g R (k + fuel) = ∅ →
      loopScan C S k fuel (iterState C S R k).1 (iterState C S R k).2
        = (iterState C S R (k + fuel)).1 := by
  intro fuel
  induction fuel with
  | zero => intro k _; rfl
  | succ fuel ih =>
    intro k hfin
    show (if (iterState C S R k).2 = ∅ then _ else _) = _
    by_cases hemp : (iterState C S R k).2 = ∅
    · rw [if_pos hemp]
      have hfk : frontierFrom g R k = ∅ := by
        rw [← iterState_snd g C S R hC hS k]
        exact hemp
      exact (iterState_stable g C S R hC hS k hfk (k + (fuel + 1)) (by omega)).symm
    · rw [if_neg hemp]
      show loopScan C S (k + 1) fuel (iterState C S R (k + 1)).1 (iterState C S R (k + 1)).2 = _
      have heq : k + 1 + fuel = k + (fuel + 1) := by omega
      have h := ih (k + 1) (by rw [heq]; exact hfin)
      rw [heq] at h
      exact h

theorem exists_complete {n : Nat} (g : TermGraph n) (C : Nat → Fin n → List (Fin n))
    (S : Nat → Finset (Fin n) → List (Fin n)) (hacy : AcyclicG g)
    (hC : ∀ k i, (C k i).toFinset = g.children i) (hS : ∀ k f, (S k f).toFinset = f)
    (X : Fin n) :
    ∃ k, X ∈ frontierFrom g (noParentTerms g) k ∧
      ∀ Y, (Y = X ∨ strictAnc g Y X) → Y ∈ (iterState C S (noParentTerms g) k).1 X := by
  suffices h : ∀ r, ∀ X : Fin n, rankOf g X < r →
      ∃ k, X ∈ frontierFrom g (noParentTerms g) k ∧
        ∀ Y, (Y = X ∨ strictAnc g Y X) → Y ∈ (iterState C S (noParentTerms g) k).1 X by
    exact h (rankOf g X + 1) X (by omega)
  intro r
  induction r with
  | zero => intro X h; omega
  | succ r ih =>
    intro X hr
    by_cases hpar : parentsOf g X = ∅
    · refine ⟨0, ?_, ?_⟩
      · exact mem_noParentTerms.mpr hpar
      · intro Y hY
        rcases hY with h1 | h1
        · subst h1
          exact iterState_self C S _ 0 Y
        · exfalso
          cases h1 with
          | single hs =>
            have : Y ∈ parentsOf g X := mem_parentsOf.mpr hs
            rw [hpar] at this
            exact absurd this (Finset.not_mem_empty Y)
          | tail hT hlast =>
            rename_i c
            have : c ∈ parentsOf g X := mem_parentsOf.mpr hlast
            rw [hpar] at this
            exact absurd this (Finset.not_mem_empty c)
    · have hne : (parentsOf g X).Nonempty := Finset.nonempty_iff_ne_empty.mpr hpar
      have hball : ∀ P, P ∈ parentsOf g X →
          ∃ k, P ∈ frontierFrom g (noParentTerms g) k ∧
            ∀ Y, (Y = P ∨ strictAnc g Y P) →
              Y ∈ (iterState C S (noParentTerms g) k).1 P := by
        intro P hP
        refine ih P ?_
        have := rankOf_lt_of_parent g hacy P X hP
        omega
      choose kf hk1 hk2 using hball
      obtain ⟨p0, _, hK⟩ := Finset.exists_mem_eq_sup ((parentsOf g X).attach)
        (Finset.attach_nonempty_iff.mpr hne) (fun p => kf p.1 p.2 + 1)
      refine ⟨(parentsOf g X).attach.sup (fun p => kf p.1 p.2 + 1), ?_, ?_⟩
      · rw [hK]
        show X ∈ (frontierFrom g (noParentTerms g) (kf p0.1 p0.2)).biUnion g.children
        refine Finset.mem_biUnion.mpr ⟨p0.1, hk1 p0.1 p0.2, ?_⟩
        exact mem_parentsOf.mp p0.2
      · intro Y hY
        rcases hY with h1 | h1
        · subst h1
          exact iterState_self C S _ _ Y
        · cases h1 with
          | single hs =>
            have hYp : Y ∈ parentsOf g X := mem_parentsOf.mpr hs
            have hself : Y ∈ (iterState C S (noParentTerms g) (kf Y hYp)).1 Y :=
              iterState_self C S _ _ Y
            have h2 : Y ∈ (iterState C S (noParentTerms g) (kf Y hYp + 1)).1 X :=
              iterState_step_lb g C S _ hC hS (kf Y hYp) Y X (hk1 Y hYp) hs hself
            have hle : kf Y hYp + 1 ≤ (parentsOf g X).attach.sup (fun p => kf p.1 p.2 + 1) :=
              @Finset.le_sup _ _ _ _ _ (fun p => kf p.1 p.2 + 1) ⟨Y, hYp⟩
                (Finset.mem_attach _ _)
            exact iterState_fst_mono_le C S _ _ _ hle X Y h2
          | tail hT hlast =>
            rename_i c
            have hcp : c ∈ parentsOf g X := mem_parentsOf.mpr hlast
            have h1 : Y ∈ (iterState C S (noParentTerms g) (kf c hcp)).1 c :=
              hk2 c hcp Y (Or.inr hT)
            have h2 : Y ∈ (iterState C S (noParentTerms g) (kf c hcp + 1)).1 X :=
              iterState_step_lb g C S _ hC hS (kf c hcp) c X (hk1 c hcp) hlast h1
            have hle : kf c hcp + 1 ≤ (parentsOf g X).attach.sup (fun p => kf p.1 p.2 + 1) :=
              @Finset.le_sup _ _ _ _ _ (fun p => kf p.1 p.2 + 1) ⟨c, hcp⟩
                (Finset.mem_attach _ _)
            exact iterState_fst_mono_le C S _ _ _ hle X Y h2

/-- The main correctness lemma for `_get_index_to_all_ancestors` on the
all-ancestors instantiation: for every acyclic graph, every pair of
iteration-order strategies, and enough fuel (the number of terms always
suffices, and the while loop stops on its own before that), the computed
set of a term is exactly itself plus its strict ancestors. -/
theorem getIndexToAllAncestors_spec {n : Nat} (g : TermGraph n) (hacy : AcyclicG g)
    (C : Nat → Fin n → List (Fin n)) (S : Nat → Finset (Fin n) → List (Fin n))
    (hC : ∀ k i, (C k i).toFinset = g.children i) (hS : ∀ k f, (S k f).toFinset = f)
    (fuel : Nat) (hfuel : n ≤ fuel) (X Y : Fin n) :
    Y ∈ getIndexToAllAncestors C S fuel (noParentTerms g) X ↔
      (Y = X ∨ strictAnc g Y X) := by
  have hloop : getIndexToAllAncestors C S fuel (noParentTerms g)
      = (iterState C S (noParentTerms g) fuel).1 := by
    have h := loopScan_eq_iterState g C S (noParentTerms g) hC hS fuel 0
      (by
        have h0 : (0 : Nat) + fuel = fuel := by omega
        rw [h0]
        exact frontierFrom_empty_of_ge g _ hacy fuel hfuel)
    have h0 : (0 : Nat) + fuel = fuel := by omega
    rw [h0] at h
    exact h
  rw [hloop]
  constructor
  · intro hY
    exact iterState_sound g C S (noParentTerms g) hC fuel X Y hY
  · intro hY
    rcases hY with hYX | hYanc
    · subst hYX
      exact iterState_self C S _ fuel Y
    · obtain ⟨k, hkF, hkC⟩ := exists_complete g C S hacy hC hS X
      have hklt : k < n := by
        obtain ⟨r, _, hre⟩ := (mem_frontierFrom g _ k X).mp hkF
        have h1 := reachesIn_rank_le g hacy k r X hre
        have h2 := rankOf_lt_card g hacy X
        omega
      exact iterState_fst_mono_le C S _ k fuel (by omega) X Y (hkC Y (Or.inr hYanc))

theorem acyclic_of_rankFn {n : Nat} (g : TermGraph n) (f : Fin n → Nat)
    (hf : ∀ a b : Fin n, b ∈ g.children a → f b < f a) : AcyclicG g := by
  have hlt : ∀ a b : Fin n, strictAnc g a b → f b < f a := by
    intro a b h
    induction h with
    | single hs => exact hf _ _ hs
    | tail _ h2 ih => exact lt_trans (hf _ _ h2) ih
  intro i hi
  exact lt_irrefl _ (hlt i i hi)

/-- The diamond instance: R = 0 with children B = 1 and C = 2, both with
the single child D = 3. -/
def diamondGraph : TermGraph 4 :=
  ⟨fun i => if i = 0 then {1, 2} else if i = 1 then {3} else if i = 2 then {3} else ∅⟩

/-- C3: for every finite term table with an acyclic is-a parent graph, and
for every pair of set-iteration-order strategies, the computed
all-ancestors set of a term is exactly the term plus its strict ancestors
(so the result is independent of traversal order, and a term with several
parents receives the union of all its parents' closures); in particular,
on the diamond graph the computed set of D is exactly the four terms
D, B, C, R, with the common ancestor R present once by set semantics. -/
theorem closure_general_and_diamond :
    (∀ (n : Nat) (g : TermGraph n), AcyclicG g →
      ∀ (C : Nat → Fin n → List (Fin n)) (S : Nat → Finset (Fin n) → List (Fin n)),
        (∀ k i, (C k i).toFinset = g.children i) → (∀ k f, (S k f).toFinset = f) →
        ∀ fuel, n ≤ fuel → ∀ X Y,
          (Y ∈ getIndexToAllAncestors C S fuel (noParentTerms g) X ↔
            (Y = X ∨ strictAnc g Y X))) ∧
    (∀ (C : Nat → Fin 4 → List (Fin 4)) (S : Nat → Finset (Fin 4) → List (Fin 4)),
      (∀ k i, (C k i).toFinset = diamondGraph.children i) →
      (∀ k f, (S k f).toFinset = f) →
      ∀ fuel, 4 ≤ fuel →
        getIndexToAllAncestors C S fuel (noParentTerms diamondGraph) 3
          = ({0, 1, 2, 3} : Finset (Fin 4))) := by
  have hacyd : AcyclicG diamondGraph :=
    acyclic_of_rankFn diamondGraph (fun i => 3 - i.val) (by decide)
  refine ⟨fun n g hacy C S hC hS fuel hfuel X Y =>
    getIndexToAllAncestors_spec g hacy C S hC hS fuel hfuel X Y, ?_⟩
  intro C S hC hS fuel hfuel
  ext j
  rw [getIndexToAllAncestors_spec diamondGraph hacyd C S hC hS fuel hfuel 3 j]
  constructor
  · intro _
    fin_cases j <;> decide
  · intro _
    fin_cases j
    · exact Or.inr (Relation.TransGen.tail
        (Relation.TransGen.single (show (1 : Fin 4) ∈ diamondGraph.children 0 by decide))
        (show (3 : Fin 4) ∈ diamondGraph.children 1 by decide))
    · exact Or.inr (Relation.TransGen.single
        (show (3 : Fin 4) ∈ diamondGraph.children 1 by decide))
    · exact Or.inr (Relation.TransGen.single
        (show (3 : Fin 4) ∈ diamondGraph.children 2 by decide))
    · exact Or.inl rfl

/-- A concrete children-enumeration strategy for the diamond graph. -/
def diamondC : Nat → Fin 4 → List (Fin 4) :=
  fun _ i => Finset.sort (· ≤ ·) (diamondGraph.children i)

/-- A concrete frontier-enumeration strategy. -/
def diamondS : Nat → Finset (Fin 4) → List (Fin 4) :=
  fun _ f => Finset.sort (· ≤ ·) f

/-- C3 witness: the diamond instance under a concrete traversal order. -/
theorem closure_general_and_diamond_witness :
    getIndexToAllAncestors diamondC diamondS 4 (noParentTerms diamondGraph) 3
      = ({0, 1, 2, 3} : Finset (Fin 4)) :=
  closure_general_and_diamond.2 diamondC diamondS
    (fun _ _ => Finset.sort_toFinset _ _) (fun _ _ => Finset.sort_toFinset _ _) 4
    (Nat.le_refl 4)

/-- C4: in a closure built from an acyclic parent graph, every term's set
contains the term itself; the set of a term includes the whole set of each
of its direct parents; and the set of an isolated term (no parents and no
children) is exactly the singleton of itself. -/
theorem closure_self_monotone_isolated :
    ∀ (n : Nat) (g : TermGraph n), AcyclicG g →
      ∀ (C : Nat → Fin n → List (Fin n)) (S : Nat → Finset (Fin n) → List (Fin n)),
        (∀ k i, (C k i).toFinset = g.children i) → (∀ k f, (S k f).toFinset = f) →
        ∀ fuel, n ≤ fuel →
          (∀ T, T ∈ getIndexToAllAncestors C S fuel (noParentTerms g) T) ∧
          (∀ T P, P ∈ parentsOf g T →
            getIndexToAllAncestors C S fuel (noParentTerms g) P
              ⊆ getIndexToAllAncestors C S fuel (noParentTerms g) T) ∧
          (∀ T, parentsOf g T = ∅ → g.children T = ∅ →
            getIndexToAllAncestors C S fuel (noParentTerms g) T = {T}) := by
  intro n g hacy C S hC hS fuel hfuel
  have hspec := getIndexToAllAncestors_spec g hacy C S hC hS fuel hfuel
  refine ⟨?_, ?_, ?_⟩
  · intro T
    exact (hspec T T).mpr (Or.inl rfl)
  · intro T P hP Y hY
    rcases (hspec P Y).mp hY with h1 | h1
    · subst h1
      exact (hspec T Y).mpr (Or.inr (Relation.TransGen.single (mem_parentsOf.mp hP)))
    · exact (hspec T Y).mpr (Or.inr (h1.tail (mem_parentsOf.mp hP)))
  · intro T hp _
    ext j
    rw [hspec T j, Finset.mem_singleton]
    constructor
    · rintro (h1 | h1)
      · exact h1
      · exfalso
        cases h1 with
        | single hs =>
          have := mem_parentsOf.mpr hs
          rw [hp] at this
          exact absurd this (Finset.not_mem_empty _)
        | tail hT hlast =>
          rename_i c
          have := mem_parentsOf.mpr hlast
          rw [hp] at this
          exact absurd this (Finset.not_mem_empty _)
    · intro h
      exact Or.inl h

/-- A single isolated term. -/
def oneGraph : TermGraph 1 := ⟨fun _ => ∅⟩

/-- Children enumeration for the one-term graph. -/
def oneC : Nat → Fin 1 → List (Fin 1) :=
  fun _ i => Finset.sort (· ≤ ·) (oneGraph.children i)

/-- Frontier enumeration for the one-term graph. -/
def oneS : Nat → Finset (Fin 1) → List (Fin 1) :=
  fun _ f => Finset.sort (· ≤ ·) f

/-- C4 witness: the isolated one-term graph. -/
theorem closure_self_monotone_isolated_witness :
    (0 : Fin 1) ∈ getIndexToAllAncestors oneC oneS 1 (noParentTerms oneGraph) 0 ∧
    getIndexToAllAncestors oneC oneS 1 (noParentTerms oneGraph) 0 = {0} := by
  have hacy : AcyclicG oneGraph := acyclic_of_rankFn oneGraph (fun _ => 0) (by decide)
  have h := closure_self_monotone_isolated 1 oneGraph hacy oneC oneS
    (fun _ _ => Finset.sort_toFinset _ _) (fun _ _ => Finset.sort_toFinset _ _) 1
    (Nat.le_refl 1)
  exact ⟨h.1 0, h.2.2 0 (by decide) (by decide)⟩

theorem parentsOf_reverse {n : Nat} (g : TermGraph n) (i : Fin n) :
    parentsOf (reverseGraph g) i = g.children i := by
  ext p
  simp [parentsOf, reverseGraph]

theorem noChildTerms_eq {n : Nat} (g : TermGraph n) :
    noChildTerms g = noParentTerms (reverseGraph g) := by
  ext i
  simp [noChildTerms, noParentTerms, parentsOf_reverse]

theorem childRel_reverse {n : Nat} (g : TermGraph n) (a b : Fin n) :
    childRel (reverseGraph g) a b ↔ childRel g b a := by
  show b ∈ parentsOf g a ↔ _
  exact mem_parentsOf

theorem strictAnc_reverse {n : Nat} (g : TermGraph n) (a b : Fin n) :
    strictAnc (reverseGraph g) a b ↔ strictAnc g b a := by
  constructor
  · intro h
    induction h with
    | single hs => exact Relation.TransGen.single ((childRel_reverse g _ _).mp hs)
    | tail _ h2 ih => exact Relation.TransGen.head ((childRel_reverse g _ _).mp h2) ih
  · intro h
    induction h with
    | single hs => exact Relation.TransGen.single ((childRel_reverse g _ _).mpr hs)
    | tail _ h2 ih => exact Relation.TransGen.head ((childRel_reverse g _ _).mpr h2) ih

theorem acyclic_reverse {n : Nat} (g : TermGraph n) (hacy : AcyclicG g) :
    AcyclicG (reverseGraph g) :=
  fun i hi => hacy i ((strictAnc_reverse g i i).mp hi)

/-- C5: the offspring pass runs the same algorithm on the inverted edge
table with the childless terms as roots; for every acyclic table, every
pair of terms and all traversal orders of both passes, Y is in
all_offspring of X exactly when X is in all_ancestors of Y. -/
theorem offspring_mirror :
    ∀ (n : Nat) (g : TermGraph n), AcyclicG g →
      ∀ (Ca : Nat → Fin n → List (Fin n)) (Sa : Nat → Finset (Fin n) → List (Fin n))
        (Co : Nat → Fin n → List (Fin n)) (So : Nat → Finset (Fin n) → List (Fin n)),
        (∀ k i, (Ca k i).toFinset = g.children i) → (∀ k f, (Sa k f).toFinset = f) →
        (∀ k i, (Co k i).toFinset = (reverseGraph g).children i) →
        (∀ k f, (So k f).toFinset = f) →
        ∀ fuelA, n ≤ fuelA → ∀ fuelO, n ≤ fuelO →
          ∀ X Y, (Y ∈ getIndexToAllAncestors Co So fuelO (noChildTerms g) X ↔
            X ∈ getIndexToAllAncestors Ca Sa fuelA (noParentTerms g) Y) := by
  intro n g hacy Ca Sa Co So hCa hSa hCo hSo fuelA hfuelA fuelO hfuelO X Y
  rw [noChildTerms_eq g]
  rw [getIndexToAllAncestors_spec (reverseGraph g) (acyclic_reverse g hacy) Co So hCo hSo
    fuelO hfuelO X Y]
  rw [getIndexToAllAncestors_spec g hacy Ca Sa hCa hSa fuelA hfuelA Y X]
  rw [strictAnc_reverse]
  constructor
  · rintro (h | h)
    · exact Or.inl h.symm
    · exact Or.inr h
  · rintro (h | h)
    · exact Or.inl h.symm
    · exact Or.inr h

/-- Children enumeration of the inverted diamond graph. -/
def diamondRC : Nat → Fin 4 → List (Fin 4) :=
  fun _ i => Finset.sort (· ≤ ·) ((reverseGraph diamondGraph).children i)

/-- C5 witness: on the diamond, D (= 3) is among the offspring of R (= 0)
exactly as R is among the ancestors of D. -/
theorem offspring_mirror_witness :
    (3 : Fin 4) ∈ getIndexToAllAncestors diamondRC diamondS 4 (noChildTerms diamondGraph) 0 ↔
      (0 : Fin 4) ∈ getIndexToAllAncestors diamondC diamondS 4 (noParentTerms diamondGraph) 3 := by
  have hacyd : AcyclicG diamondGraph :=
    acyclic_of_rankFn diamondGraph (fun i => 3 - i.val) (by decide)
  exact offspring_mirror 4 diamondGraph hacyd diamondC diamondS diamondRC diamondS
    (fun _ _ => Finset.sort_toFinset _ _) (fun _ _ => Finset.sort_toFinset _ _)
    (fun _ _ => Finset.sort_toFinset _ _) (fun _ _ => Finset.sort_toFinset _ _)
    4 (Nat.le_refl 4) 4 (Nat.le_refl 4) 0 3

end UnirefDataset
